import Mathlib

/-!
Shallow embedding of the Monkey-lexer sources (`src/main.rs`) of
`monkey-interpreter-rs`: the token model (`mod token`) and the scanner
(`mod lexer`), together with theorems checking the specification's claims
against this embedding.

Modelling conventions:
* A Rust `String` input is modelled as its character sequence `List Char`.
  Rust's `String::len` returns the UTF-8 *byte* length, while
  `chars().nth(i)` indexes *characters*; we model the byte length with
  `byteLen` (the sum of the UTF-8 sizes of the characters), so the
  byte/character mismatch of the source is preserved faithfully.
* Every Rust operation that can panic (`.unwrap()` on `None`, byte-index
  slicing of a `String`) is modelled as an `Option`-returning function,
  `none` standing for the panic.
* The two `while` loops (`read_identifier`, `read_number`) are modelled
  with explicit fuel `byteLen input + 2`, which is proved sufficient for
  every state satisfying the scanner invariant.
-/

namespace Monkey

/-- Mirror of `token::Token { token_type: String, literal: String }`. -/
structure Token where
  token_type : String
  literal : String
deriving DecidableEq, Repr

namespace Token

/-- Mirror of the associated constants `Token::ILLEGAL`, …, `Token::NOT_EQ`
in `src/main.rs`.  Note that the source assigns the *same* string `";"` to
both `COMMA` and `SEMICOLON`. -/
def ILLEGAL : String := "ILLEGAL"

def EOF : String := "EOF"

def IDENT : String := "IDENT"

def INT : String := "INT"

def ASSIGN : String := "="

def PLUS : String := "+"

def MINUS : String := "-"

def BANG : String := "!"

def ASTERISK : String := "*"

def SLASH : String := "/"

def COMMA : String := ";"

def SEMICOLON : String := ";"

def LT : String := "<"

def GT : String := ">"

def LPAREN : String := "("

def RPAREN : String := ")"

def LBRACE : String := "\x7b"

def RBRACE : String := "\x7d"

def FUNCTION : String := "FUNCTION"

def LET : String := "LET"

def TRUE : String := "TRUE"

def FALSE : String := "FALSE"

def IF : String := "IF"

def ELSE : String := "ELSE"

def RETURN : String := "RETURN"

def EQ : String := "=="

def NOT_EQ : String := "!="

/-- Mirror of `Token::new(token_type, literal)` (no validation). -/
def new (token_type : String) (literal : String) : Token :=
  ⟨token_type, literal⟩

end Token

/-- Mirror of the `lazy_static!` map `KEYWORDS` in `mod token`, as an
association list (all keys are distinct, so lookup agrees with the
`HashMap`). -/
def KEYWORDS : List (String × String) :=
  [("fn", Token.FUNCTION), ("let", Token.LET), ("true", Token.TRUE),
   ("false", Token.FALSE), ("if", Token.IF), ("else", Token.ELSE),
   ("return", Token.RETURN)]

/-- Mirror of `Token::lookup_ident`.  The source does
`*KEYWORDS.get(ident).unwrap()`: the `unwrap` panics when `ident` is not a
keyword, modelled here by returning `none`. -/
def Token.lookup_ident (ident : String) : Option String :=
  KEYWORDS.lookup ident

/-- UTF-8 byte length of a character sequence: the model of Rust's
`String::len` (which counts bytes, not characters). -/
def byteLen (cs : List Char) : Nat :=
  (cs.map Char.utf8Size).sum

/-- Mirror of `lexer::Lexer { input, position, read_position, ch }` with the
input as its character sequence. -/
structure Lexer where
  input : List Char
  position : Nat
  read_position : Nat
  ch : Char
deriving DecidableEq, Repr

namespace Lexer

/-- Mirror of `Lexer::read_char`: the guard `read_position >= input.len()`
compares against the *byte* length, while `input.chars().nth(read_position)`
indexes *characters*; its `.unwrap()` panics (`none`) when the guard passes
but no character exists at that index. -/
def read_char (l : Lexer) : Option Lexer :=
  if byteLen l.input ≤ l.read_position then
    some { l with ch := '\x00', position := l.read_position,
                  read_position := l.read_position + 1 }
  else
    match l.input.get? l.read_position with
    | some c => some { l with ch := c, position := l.read_position,
                              read_position := l.read_position + 1 }
    | none => none

/-- Mirror of `Lexer::peekChar` (same guard/index mismatch as `read_char`). -/
def peekChar (l : Lexer) : Option Char :=
  if byteLen l.input ≤ l.read_position then
    some '\x00'
  else
    match l.input.get? l.read_position with
    | some c => some c
    | none => none

/-- Mirror of `Lexer::is_digit`. -/
def is_digit (ch : Char) : Bool :=
  '0' ≤ ch && ch ≤ '9'

/-- Mirror of `Lexer::is_letter`. -/
def is_letter (ch : Char) : Bool :=
  ('a' ≤ ch && ch ≤ 'z') || ('A' ≤ ch && ch ≤ 'Z') || ch == '_'

/-- Fuelled form of the `while p(self.ch) { self.read_char() }` loops of
`read_identifier`, `read_number` and `skip_whitespace`; `none` when
`read_char` panics or the fuel runs out (the fuel `byteLen input + 2` used
below is proved sufficient). -/
def readWhile (p : Char → Bool) : Nat → Lexer → Option Lexer
  | 0, _ => none
  | fuel + 1, l =>
    if p l.ch then
      match read_char l with
      | some l1 => readWhile p fuel l1
      | none => none
    else
      some l

/-- Drop `n` *bytes* from a character sequence: `none` unless `n` lands on a
character boundary within the sequence (models the start of a Rust byte-index
slice, which panics otherwise). -/
def dropBytes : List Char → Nat → Option (List Char)
  | cs, 0 => some cs
  | [], _ + 1 => none
  | c :: cs, n + 1 =>
    if c.utf8Size ≤ n + 1 then dropBytes cs (n + 1 - c.utf8Size) else none

/-- Take exactly `n` *bytes* from a character sequence: `none` unless `n`
lands on a character boundary within the sequence. -/
def takeBytes : List Char → Nat → Option (List Char)
  | _, 0 => some []
  | [], _ + 1 => none
  | c :: cs, n + 1 =>
    if c.utf8Size ≤ n + 1 then
      match takeBytes cs (n + 1 - c.utf8Size) with
      | some l => some (c :: l)
      | none => none
    else none

/-- Model of the Rust byte-index slice `&input[a..b]`: panics (`none`) when
`a > b`, when either end is out of bounds, or when either end is not a
character boundary. -/
def sliceBytes (cs : List Char) (a b : Nat) : Option String :=
  if a ≤ b then
    match dropBytes cs a with
    | some rest =>
      match takeBytes rest (b - a) with
      | some l => some (String.mk l)
      | none => none
    | none => none
  else none

/-- Mirror of `Lexer::read_identifier`: remember `position`, loop
`read_char` while `is_letter(self.ch)`, then return
`self.input[position..self.position].to_string()`. -/
def read_identifier (l : Lexer) : Option (String × Lexer) :=
  match readWhile is_letter (byteLen l.input + 2) l with
  | some l1 =>
    match sliceBytes l.input l.position l1.position with
    | some s => some (s, l1)
    | none => none
  | none => none

/-- Mirror of `Lexer::read_number` (same shape as `read_identifier` with
`is_digit`). -/
def read_number (l : Lexer) : Option (String × Lexer) :=
  match readWhile is_digit (byteLen l.input + 2) l with
  | some l1 =>
    match sliceBytes l.input l.position l1.position with
    | some s => some (s, l1)
    | none => none
  | none => none

/-- Mirror of `Lexer::skip_whitespace`.  NOTE: this function exists in the
source but is never called by `next_token`. -/
def skip_whitespace (l : Lexer) : Option Lexer :=
  readWhile (fun c => c == ' ' || c == '\t' || c == '\n' || c == '\r')
    (byteLen l.input + 2) l

/-- The `match self.ch { … }` body of `Lexer::next_token`, computing the
token and the state reached *before* the trailing `self.read_char()`.  The
`'='`/`'!'` branches peek and possibly self-advance; the default branch
dispatches on `is_letter` / `is_digit` / illegal.  A `none` models a panic
(inside `peekChar`, `read_char`, slicing, or `lookup_ident`'s `unwrap`). -/
def next_token_core (l : Lexer) : Option (Token × Lexer) :=
  match l.ch with
  | '=' =>
    match peekChar l with
    | some p =>
      if p = '=' then
        match read_char l with
        | some l1 => some (Token.new Token.EQ (String.mk [l.ch, l1.ch]), l1)
        | none => none
      else
        some (Token.new Token.ASSIGN (String.mk [l.ch]), l)
    | none => none
  | '!' =>
    match peekChar l with
    | some p =>
      if p = '=' then
        match read_char l with
        | some l1 => some (Token.new Token.NOT_EQ (String.mk [l.ch, l1.ch]), l1)
        | none => none
      else
        some (Token.new Token.BANG (String.mk [l.ch]), l)
    | none => none
  | '+' => some (Token.new Token.PLUS (String.mk [l.ch]), l)
  | '-' => some (Token.new Token.MINUS (String.mk [l.ch]), l)
  | '/' => some (Token.new Token.SLASH (String.mk [l.ch]), l)
  | '*' => some (Token.new Token.ASTERISK (String.mk [l.ch]), l)
  | '<' => some (Token.new Token.LT (String.mk [l.ch]), l)
  | '>' => some (Token.new Token.GT (String.mk [l.ch]), l)
  | '(' => some (Token.new Token.LPAREN (String.mk [l.ch]), l)
  | ')' => some (Token.new Token.RPAREN (String.mk [l.ch]), l)
  | ';' => some (Token.new Token.SEMICOLON (String.mk [l.ch]), l)
  | ',' => some (Token.new Token.COMMA (String.mk [l.ch]), l)
  | '\x7b' => some (Token.new Token.LBRACE (String.mk [l.ch]), l)
  | '\x7d' => some (Token.new Token.RBRACE (String.mk [l.ch]), l)
  | '\x00' => some (Token.new Token.EOF "", l)
  | _ =>
    if is_letter l.ch then
      match read_identifier l with
      | some (literal, l1) =>
        match Token.lookup_ident literal with
        | some token_type => some (Token.new token_type literal, l1)
        | none => none
      | none => none
    else if is_digit l.ch then
      match read_number l with
      | some (literal, l1) => some (Token.new Token.INT literal, l1)
      | none => none
    else
      some (Token.new Token.ILLEGAL (String.mk [l.ch]), l)

/-- Mirror of `Lexer::next_token`: the `match` body followed by the
*unconditional* trailing `self.read_char()` (the source performs this
advance on every path, including after `read_identifier`/`read_number` and
at end of input). -/
def next_token (l : Lexer) : Option (Token × Lexer) :=
  match next_token_core l with
  | some (tok, l1) =>
    match read_char l1 with
    | some l2 => some (tok, l2)
    | none => none
  | none => none

/-- Mirror of `Lexer::new`: zero cursors, sentinel `ch`, then one
`read_char`. -/
def new (input : List Char) : Option Lexer :=
  read_char { input := input, position := 0, read_position := 0, ch := '\x00' }

/-- Run `next_token` `n` times, collecting the tokens; `none` if any call
panics. -/
def runN : Nat → Lexer → Option (List Token × Lexer)
  | 0, l => some ([], l)
  | n + 1, l =>
    match next_token l with
    | some (t, l1) =>
      match runN n l1 with
      | some (ts, l2) => some (t :: ts, l2)
      | none => none
    | none => none

/-- Scanner cursor invariant: `read_position` is one past `position`, and
once `read_position` has run past the byte length the current character is
the sentinel.  It holds after `new` and after every successful
`read_char`. -/
def INV (l : Lexer) : Prop :=
  l.read_position = l.position + 1 ∧
    (byteLen l.input < l.read_position → l.ch = '\x00')

/-- End-of-input state: the current character is the sentinel and
`read_position` has reached (or passed) the byte length of the input. -/
def AtEof (l : Lexer) : Prop :=
  l.ch = '\x00' ∧ byteLen l.input ≤ l.read_position

end Lexer

/-!
Theorems.  Claim-named theorems are interleaved with the shared helper
lemmas they build on.
-/

namespace Lexer

theorem byteLen_nil : byteLen [] = 0 := rfl

theorem byteLen_cons (c : Char) (cs : List Char) :
    byteLen (c :: cs) = c.utf8Size + byteLen cs := by
  simp [byteLen]

theorem one_le_utf8Size (c : Char) : 1 ≤ c.utf8Size := by
  have h := Char.utf8Size_pos c
  omega

theorem length_le_byteLen (cs : List Char) : cs.length ≤ byteLen cs := by
  induction cs with
  | nil => simp [byteLen_nil]
  | cons c cs ih =>
    have h1 := one_le_utf8Size c
    simp only [List.length_cons, byteLen_cons]
    omega

theorem utf8Size_eq_one_of_byteLen_eq (cs : List Char)
    (h : byteLen cs = cs.length) : ∀ c ∈ cs, c.utf8Size = 1 := by
  induction cs with
  | nil => intro c hc; cases hc
  | cons c cs ih =>
    intro d hd
    have h1 := one_le_utf8Size c
    have h2 := length_le_byteLen cs
    rw [byteLen_cons, List.length_cons] at h
    rw [List.mem_cons] at hd
    rcases hd with rfl | hd
    · omega
    · exact ih (by omega) d hd

theorem read_char_spec {l l1 : Lexer} (h : read_char l = some l1) :
    l1.input = l.input ∧ l1.position = l.read_position ∧
      l1.read_position = l.read_position + 1 ∧ INV l1 := by
  unfold read_char at h
  split at h
  · next hle =>
    injection h with h
    subst h
    refine ⟨rfl, rfl, rfl, rfl, ?_⟩
    intro _; rfl
  · next hlt =>
    split at h
    · next c hc =>
      injection h with h
      subst h
      refine ⟨rfl, rfl, rfl, rfl, ?_⟩
      intro hcontra
      simp only at hcontra
      omega
    · exact absurd h (by simp)

theorem read_char_some {l : Lexer} (hA : byteLen l.input = l.input.length) :
    ∃ l1, read_char l = some l1 := by
  unfold read_char
  split
  · exact ⟨_, rfl⟩
  · next hlt =>
    have hpos : l.read_position < l.input.length := by omega
    rw [List.get?_eq_get hpos]
    exact ⟨_, rfl⟩

theorem read_char_eof {l : Lexer} (h : byteLen l.input ≤ l.read_position) :
    read_char l = some { l with ch := '\x00', position := l.read_position,
                                read_position := l.read_position + 1 } := by
  unfold read_char
  rw [if_pos h]

theorem peekChar_some {l : Lexer} (hA : byteLen l.input = l.input.length) :
    ∃ c, peekChar l = some c := by
  unfold peekChar
  split
  · exact ⟨_, rfl⟩
  · next hlt =>
    have hpos : l.read_position < l.input.length := by omega
    rw [List.get?_eq_get hpos]
    exact ⟨_, rfl⟩

theorem new_spec (input : List Char) :
    ∃ l0, new input = some l0 ∧ INV l0 ∧ l0.input = input ∧
      l0.position = 0 ∧ l0.read_position = 1 := by
  unfold new
  cases input with
  | nil =>
    exact ⟨_, read_char_eof (by simp [byteLen_nil]), ⟨rfl, by intro _; rfl⟩,
      rfl, rfl, rfl⟩
  | cons c cs =>
    have hlt : ¬ byteLen (c :: cs) ≤ 0 := by
      have := one_le_utf8Size c
      rw [byteLen_cons]
      omega
    refine ⟨⟨c :: cs, 0, 1, c⟩, ?_, ?_⟩
    · unfold read_char
      rw [if_neg hlt]
      rfl
    · refine ⟨⟨rfl, ?_⟩, rfl, rfl, rfl⟩
      intro hcontra
      simp only at hcontra
      rw [byteLen_cons] at hcontra
      have := one_le_utf8Size c
      have := length_le_byteLen cs
      omega

theorem next_token_at_eof {l : Lexer} (h1 : l.ch = '\x00')
    (h2 : byteLen l.input ≤ l.read_position) :
    next_token l = some (Token.new Token.EOF "",
      { l with ch := '\x00', position := l.read_position,
               read_position := l.read_position + 1 }) := by
  unfold next_token next_token_core
  rw [h1]
  simp only []
  rw [read_char_eof h2]

theorem runN_at_eof {l : Lexer} (h : AtEof l) (n : Nat) :
    ∃ l1, runN n l = some (List.replicate n (Token.new Token.EOF ""), l1) ∧
      AtEof l1 := by
  induction n generalizing l with
  | zero => exact ⟨l, rfl, h⟩
  | succ n ih =>
    have hstep := next_token_at_eof h.1 h.2
    have hnext : AtEof { l with ch := '\x00', position := l.read_position,
                                read_position := l.read_position + 1 } :=
      ⟨rfl, Nat.le_succ_of_le h.2⟩
    obtain ⟨l1, hrun, heof⟩ := ih hnext
    refine ⟨l1, ?_, heof⟩
    simp only [runN, hstep, hrun, List.replicate_succ]

theorem readWhile_input {p : Char → Bool} :
    ∀ {fuel : Nat} {l l1 : Lexer}, readWhile p fuel l = some l1 →
      l1.input = l.input := by
  intro fuel
  induction fuel with
  | zero => intro l l1 h; exact absurd h (by simp [readWhile])
  | succ n ih =>
    intro l l1 h
    unfold readWhile at h
    split at h
    · split at h
      · next l2 heq => exact (ih h).trans (read_char_spec heq).1
      · exact absurd h (by simp)
    · injection h with h
      subst h
      rfl

theorem read_identifier_input {l l1 : Lexer} {s : String}
    (h : read_identifier l = some (s, l1)) : l1.input = l.input := by
  unfold read_identifier at h
  split at h
  · next l2 heq =>
    split at h
    · injection h with h
      rw [show l1 = l2 from congrArg Prod.snd h.symm]
      exact readWhile_input heq
    · exact absurd h (by simp)
  · exact absurd h (by simp)

theorem read_number_input {l l1 : Lexer} {s : String}
    (h : read_number l = some (s, l1)) : l1.input = l.input := by
  unfold read_number at h
  split at h
  · next l2 heq =>
    split at h
    · injection h with h
      rw [show l1 = l2 from congrArg Prod.snd h.symm]
      exact readWhile_input heq
    · exact absurd h (by simp)
  · exact absurd h (by simp)

theorem next_token_core_shape {l l1 : Lexer} {t : Token}
    (h : next_token_core l = some (t, l1)) :
    l1 = l ∨ read_char l = some l1 ∨
      (∃ s, read_identifier l = some (s, l1)) ∨
      (∃ s, read_number l = some (s, l1)) := by
  unfold next_token_core at h
  split at h
  all_goals repeat' (split at h)
  all_goals try (simp only [Option.some.injEq, Prod.mk.injEq] at h)
  all_goals
    first
      | exact Option.noConfusion h
      | (obtain ⟨-, rfl⟩ := h
         first
           | exact Or.inl rfl
           | exact Or.inr (Or.inl (by assumption))
           | exact Or.inr (Or.inr (Or.inl ⟨_, by assumption⟩))
           | exact Or.inr (Or.inr (Or.inr ⟨_, by assumption⟩)))

theorem next_token_core_input {l l1 : Lexer} {t : Token}
    (h : next_token_core l = some (t, l1)) : l1.input = l.input := by
  rcases next_token_core_shape h with rfl | h1 | ⟨s, h1⟩ | ⟨s, h1⟩
  · rfl
  · exact (read_char_spec h1).1
  · exact read_identifier_input h1
  · exact read_number_input h1

theorem next_token_spec {l l1 : Lexer} {t : Token}
    (h : next_token l = some (t, l1)) :
    l1.input = l.input ∧ INV l1 := by
  unfold next_token at h
  split at h
  · next t0 l0 heq0 =>
    split at h
    · next l2 heq2 =>
      injection h with h
      have hl1 : l1 = l2 := congrArg Prod.snd h.symm
      subst hl1
      exact ⟨(read_char_spec heq2).1.trans (next_token_core_input heq0),
        (read_char_spec heq2).2.2.2⟩
    · exact absurd h (by simp)
  · exact absurd h (by simp)

theorem readWhile_succ_neg {p : Char → Bool} {fuel : Nat} {l : Lexer}
    (h : p l.ch = false) : readWhile p (fuel + 1) l = some l := by
  simp [readWhile, h]

theorem readWhile_succ_pos {p : Char → Bool} {fuel : Nat} {l : Lexer}
    (h : p l.ch = true) :
    readWhile p (fuel + 1) l =
      match read_char l with
      | some l1 => readWhile p fuel l1
      | none => none := by
  simp [readWhile, h]

theorem readWhile_some {p : Char → Bool} (hp : p '\x00' = false) :
    ∀ (fuel : Nat) (l : Lexer), byteLen l.input = l.input.length → INV l →
      1 ≤ fuel → byteLen l.input + 2 ≤ fuel + l.read_position →
      ∃ l1, readWhile p fuel l = some l1 ∧ INV l1 ∧ l1.input = l.input ∧
        l.position ≤ l1.position ∧
        l1.position ≤ max l.position (byteLen l.input) ∧ p l1.ch = false := by
  intro fuel
  induction fuel with
  | zero => intro l _ _ h1 _; omega
  | succ n ih =>
    intro l hA hInv h1 h2
    cases hpc : p l.ch with
    | false =>
      exact ⟨l, readWhile_succ_neg hpc, hInv, rfl, le_refl _,
        le_max_left _ _, hpc⟩
    | true =>
      have hch : l.ch ≠ '\x00' := by
        intro hc
        rw [hc, hp] at hpc
        exact Bool.noConfusion hpc
      have hrp : l.read_position ≤ byteLen l.input := by
        by_contra hcon
        exact hch (hInv.2 (by omega))
      obtain ⟨l2, hl2⟩ := read_char_some hA
      obtain ⟨hinp2, hpos2, hrp2, hInv2⟩ := read_char_spec hl2
      have hA2 : byteLen l2.input = l2.input.length := by
        rw [hinp2]; exact hA
      have h1n : 1 ≤ n := by omega
      have h2n : byteLen l2.input + 2 ≤ n + l2.read_position := by
        rw [hinp2, hrp2]; omega
      obtain ⟨l1, hrun, hInv1, hinp1, hposle, hposmax, hpc1⟩ :=
        ih l2 hA2 hInv2 h1n h2n
      refine ⟨l1, ?_, hInv1, by rw [hinp1, hinp2], ?_, ?_, hpc1⟩
      · rw [readWhile_succ_pos hpc, hl2]
        exact hrun
      · have hrp1 := hInv.1
        omega
      · have hmax : max l2.position (byteLen l2.input) = byteLen l.input := by
          rw [hinp2, hpos2]
          exact max_eq_right hrp
        rw [hmax] at hposmax
        exact le_trans hposmax (le_max_right _ _)

theorem dropBytes_ascii :
    ∀ (cs : List Char) (a : Nat), (∀ c ∈ cs, c.utf8Size = 1) →
      a ≤ cs.length → dropBytes cs a = some (cs.drop a) := by
  intro cs
  induction cs with
  | nil =>
    intro a _ ha
    have h0 : a = 0 := Nat.le_zero.mp ha
    subst h0
    rfl
  | cons c cs ih =>
    intro a hall ha
    cases a with
    | zero => rfl
    | succ a =>
      have hc : c.utf8Size = 1 := hall c (List.mem_cons_self _ _)
      unfold dropBytes
      rw [hc, if_pos (by omega), Nat.add_sub_cancel, List.drop_succ_cons]
      exact ih a (fun d hd => hall d (List.mem_cons_of_mem _ hd))
        (by simp only [List.length_cons] at ha; omega)

theorem takeBytes_ascii :
    ∀ (cs : List Char) (n : Nat), (∀ c ∈ cs, c.utf8Size = 1) →
      n ≤ cs.length → takeBytes cs n = some (cs.take n) := by
  intro cs
  induction cs with
  | nil =>
    intro n _ hn
    have h0 : n = 0 := Nat.le_zero.mp hn
    subst h0
    rfl
  | cons c cs ih =>
    intro n hall hn
    cases n with
    | zero => rfl
    | succ n =>
      have hc : c.utf8Size = 1 := hall c (List.mem_cons_self _ _)
      unfold takeBytes
      rw [hc, if_pos (by omega), Nat.add_sub_cancel]
      rw [ih n (fun d hd => hall d (List.mem_cons_of_mem _ hd))
        (by simp only [List.length_cons] at hn; omega)]
      rfl

theorem sliceBytes_ascii {cs : List Char} {a b : Nat}
    (hall : ∀ c ∈ cs, c.utf8Size = 1) (hab : a ≤ b) (hb : b ≤ cs.length) :
    ∃ s, sliceBytes cs a b = some s := by
  unfold sliceBytes
  rw [if_pos hab, dropBytes_ascii cs a hall (le_trans hab hb)]
  show ∃ s, (match takeBytes (cs.drop a) (b - a) with
      | some l => some (String.mk l)
      | none => none) = some s
  rw [takeBytes_ascii (cs.drop a) (b - a)
      (fun d hd => hall d (List.drop_subset _ _ hd))
      (by rw [List.length_drop]; omega)]
  exact ⟨_, rfl⟩

theorem read_identifier_some {l : Lexer} (hA : byteLen l.input = l.input.length)
    (hInv : INV l) (hch : is_letter l.ch = true) :
    ∃ s l1, read_identifier l = some (s, l1) ∧ INV l1 ∧ l1.input = l.input := by
  have hp : is_letter '\x00' = false := rfl
  obtain ⟨l1, hrun, hInv1, hinp1, hposle, hposmax, -⟩ :=
    readWhile_some hp (byteLen l.input + 2) l hA hInv (by omega) (by omega)
  have hch0 : l.ch ≠ '\x00' := by
    intro hc
    rw [hc, hp] at hch
    exact Bool.noConfusion hch
  have hrp : l.read_position ≤ byteLen l.input := by
    by_contra hcon
    exact hch0 (hInv.2 (by omega))
  have hpos : l.position ≤ byteLen l.input := by
    have := hInv.1
    omega
  have hposmax2 : l1.position ≤ byteLen l.input := by
    rw [max_eq_right hpos] at hposmax
    exact hposmax
  obtain ⟨s, hs⟩ := sliceBytes_ascii
    (utf8Size_eq_one_of_byteLen_eq l.input hA) hposle (by omega)
  refine ⟨s, l1, ?_, hInv1, hinp1⟩
  unfold read_identifier
  rw [hrun]
  show (match sliceBytes l.input l.position l1.position with
      | some s => some (s, l1)
      | none => none) = some (s, l1)
  rw [hs]

theorem read_number_some {l : Lexer} (hA : byteLen l.input = l.input.length)
    (hInv : INV l) (hch : is_digit l.ch = true) :
    ∃ s l1, read_number l = some (s, l1) ∧ INV l1 ∧ l1.input = l.input := by
  have hp : is_digit '\x00' = false := rfl
  obtain ⟨l1, hrun, hInv1, hinp1, hposle, hposmax, -⟩ :=
    readWhile_some hp (byteLen l.input + 2) l hA hInv (by omega) (by omega)
  have hch0 : l.ch ≠ '\x00' := by
    intro hc
    rw [hc, hp] at hch
    exact Bool.noConfusion hch
  have hrp : l.read_position ≤ byteLen l.input := by
    by_contra hcon
    exact hch0 (hInv.2 (by omega))
  have hpos : l.position ≤ byteLen l.input := by
    have := hInv.1
    omega
  have hposmax2 : l1.position ≤ byteLen l.input := by
    rw [max_eq_right hpos] at hposmax
    exact hposmax
  obtain ⟨s, hs⟩ := sliceBytes_ascii
    (utf8Size_eq_one_of_byteLen_eq l.input hA) hposle (by omega)
  refine ⟨s, l1, ?_, hInv1, hinp1⟩
  unfold read_number
  rw [hrun]
  show (match sliceBytes l.input l.position l1.position with
      | some s => some (s, l1)
      | none => none) = some (s, l1)
  rw [hs]

theorem next_token_core_total {l : Lexer}
    (hA : byteLen l.input = l.input.length) (hInv : INV l) :
    (∃ t l1, next_token_core l = some (t, l1)) ∨
      (is_letter l.ch = true ∧ ∃ s l1, read_identifier l = some (s, l1) ∧
        Token.lookup_ident s = none ∧ next_token_core l = none) := by
  unfold next_token_core
  split
  case h_1 =>
    obtain ⟨p, hp⟩ := peekChar_some hA
    by_cases hpe : p = '='
    · obtain ⟨l2, h2⟩ := read_char_some hA
      refine Or.inl ⟨Token.new Token.EQ (String.mk [l.ch, l2.ch]), l2, ?_⟩
      simp only [hp, h2, if_pos hpe]
    · refine Or.inl ⟨Token.new Token.ASSIGN (String.mk [l.ch]), l, ?_⟩
      simp only [hp, if_neg hpe]
  case h_2 =>
    obtain ⟨p, hp⟩ := peekChar_some hA
    by_cases hpe : p = '='
    · obtain ⟨l2, h2⟩ := read_char_some hA
      refine Or.inl ⟨Token.new Token.NOT_EQ (String.mk [l.ch, l2.ch]), l2, ?_⟩
      simp only [hp, h2, if_pos hpe]
    · refine Or.inl ⟨Token.new Token.BANG (String.mk [l.ch]), l, ?_⟩
      simp only [hp, if_neg hpe]
  case h_16 =>
    by_cases hch : is_letter l.ch = true
    · obtain ⟨s, l1, hs, -, -⟩ := read_identifier_some hA hInv hch
      rw [if_pos hch]
      cases hlook : Token.lookup_ident s with
      | some tt =>
        refine Or.inl ⟨Token.new tt s, l1, ?_⟩
        simp only [hs, hlook]
      | none =>
        refine Or.inr ⟨hch, s, l1, hs, hlook, ?_⟩
        simp only [hs, hlook]
    · rw [if_neg hch]
      by_cases hdg : is_digit l.ch = true
      · obtain ⟨s, l1, hs, -, -⟩ := read_number_some hA hInv hdg
        rw [if_pos hdg]
        refine Or.inl ⟨Token.new Token.INT s, l1, ?_⟩
        simp only [hs]
      · rw [if_neg hdg]
        exact Or.inl ⟨_, _, rfl⟩
  all_goals exact Or.inl ⟨_, _, rfl⟩

theorem next_token_total {l : Lexer}
    (hA : byteLen l.input = l.input.length) (hInv : INV l) :
    (∃ t l1, next_token l = some (t, l1)) ∨
      (is_letter l.ch = true ∧ ∃ s l1, read_identifier l = some (s, l1) ∧
        Token.lookup_ident s = none ∧ next_token l = none) := by
  rcases next_token_core_total hA hInv with ⟨t, l1, hcore⟩ | ⟨hch, s, l1, hs, hlook, hcore⟩
  · have hinp1 : l1.input = l.input := next_token_core_input hcore
    have hA1 : byteLen l1.input = l1.input.length := by
      rw [hinp1]; exact hA
    obtain ⟨l2, h2⟩ := read_char_some hA1
    refine Or.inl ⟨t, l2, ?_⟩
    unfold next_token
    rw [hcore]
    show (match read_char l1 with
        | some l2 => some (t, l2)
        | none => none) = some (t, l2)
    rw [h2]
  · refine Or.inr ⟨hch, s, l1, hs, hlook, ?_⟩
    unfold next_token
    rw [hcore]

end Lexer

namespace Claims

open Lexer

/-- Claim C1: the claim states `lookup_ident` never fails and returns
`Identifier` for non-keywords; the source instead does
`*KEYWORDS.get(ident).unwrap()`, which panics (modelled: `none`) on every
non-keyword such as `"five"`, while the seven keywords do map to their
kinds.  This theorem evaluates the model at the failing input. -/
theorem C1_lookup_ident_panics :
    Token.lookup_ident "five" = none ∧ Token.lookup_ident "x" = none ∧
      Token.lookup_ident "fn" = some Token.FUNCTION ∧
      Token.lookup_ident "let" = some Token.LET ∧
      Token.lookup_ident "true" = some Token.TRUE ∧
      Token.lookup_ident "false" = some Token.FALSE ∧
      Token.lookup_ident "if" = some Token.IF ∧
      Token.lookup_ident "else" = some Token.ELSE ∧
      Token.lookup_ident "return" = some Token.RETURN :=
  ⟨rfl, rfl, rfl, rfl, rfl, rfl, rfl, rfl, rfl⟩

/-- Claim C2: the claim states `next` first skips whitespace, so a
whitespace-only input yields `EndOfInput` first.  In the source
`skip_whitespace` exists but `next_token` never calls it: on the input
`" "` the first token is `Illegal(" ")`, not `EndOfInput`.  (The dead
`skip_whitespace` function itself would indeed have skipped the blank.) -/
theorem C2_whitespace_not_skipped :
    ((Lexer.new " ".toList).bind (runN 1)).map Prod.fst =
        some [Token.new Token.ILLEGAL " "] ∧
      ((Lexer.new " ".toList).bind (runN 2)).map Prod.fst =
        some [Token.new Token.ILLEGAL " ", Token.new Token.EOF ""] ∧
      skip_whitespace ⟨" ".toList, 0, 1, ' '⟩ = some ⟨" ".toList, 1, 2, '\x00'⟩ :=
  ⟨rfl, rfl, rfl⟩

/-- Claim C3: the claim states that after an identifier/number run no extra
one-character advance happens, so the character following the run is still
current at the next call.  The source's `next_token` ends with an
*unconditional* `self.read_char()`, which silently consumes that
character: on `"5;"` the semicolon never appears — the two calls yield
`Integer("5")` then `EndOfInput`, instead of `Integer("5")`,
`Semicolon(";")`. -/
theorem C3_trailing_advance_consumes_next_char :
    ((Lexer.new "5;".toList).bind (runN 2)).map Prod.fst =
        some [Token.new Token.INT "5", Token.new Token.EOF ""] ∧
      ((Lexer.new "5;".toList).bind (runN 3)).map Prod.fst =
        some [Token.new Token.INT "5", Token.new Token.EOF "",
              Token.new Token.EOF ""] :=
  ⟨rfl, rfl⟩

/-- Claim C4: the claim states `"let five = 5"` lexes to
`Let, Identifier("five"), Assign, Integer("5"), EndOfInput`.  The first
call does yield `Let("let")`, but the second call panics in
`lookup_ident` (`unwrap` on `None` for the non-keyword `"five"`),
modelled by `none`. -/
theorem C4_let_five_sequence_panics :
    ((Lexer.new "let five = 5".toList).bind (runN 1)).map Prod.fst =
        some [Token.new Token.LET "let"] ∧
      (Lexer.new "let five = 5".toList).bind (runN 2) = none :=
  ⟨rfl, rfl⟩

/-- Claim C5: once the scanner is at end of input (sentinel current
character, `read_position` at or past the byte length), every further call
to `next_token` succeeds (no panic/underflow) and returns the
`EndOfInput` token with empty literal, for any number of calls. -/
theorem C5_eof_absorbing (l : Lexer) (h : AtEof l) (n : Nat) :
    (runN n l).map Prod.fst =
      some (List.replicate n (Token.new Token.EOF "")) := by
  obtain ⟨l1, hrun, -⟩ := runN_at_eof h n
  rw [hrun]
  rfl

/-- Witness for C5 at the state reached by `Lexer::new("")`, three calls. -/
theorem C5_eof_absorbing_witness :
    AtEof ⟨[], 0, 1, '\x00'⟩ ∧
      (runN 3 ⟨[], 0, 1, '\x00'⟩).map Prod.fst =
        some (List.replicate 3 (Token.new Token.EOF "")) :=
  ⟨⟨rfl, by decide⟩, C5_eof_absorbing ⟨[], 0, 1, '\x00'⟩ ⟨rfl, by decide⟩ 3⟩

/-- Claim C7: `"=="` lexes to exactly one `Equal` token with literal
`"=="` followed by `EndOfInput`, and `"!="` to exactly one `NotEqual`
token with literal `"!="` followed by `EndOfInput`. -/
theorem C7_two_char_operators :
    ((Lexer.new "==".toList).bind (runN 2)).map Prod.fst =
        some [Token.new Token.EQ "==", Token.new Token.EOF ""] ∧
      ((Lexer.new "!=".toList).bind (runN 2)).map Prod.fst =
        some [Token.new Token.NOT_EQ "!=", Token.new Token.EOF ""] :=
  ⟨rfl, rfl⟩

/-- Claim C8: the source assigns the same kind string `";"` to both
`Token::COMMA` and `Token::SEMICOLON`, so the tokens scanned from `","`
and `";"` have equal kinds and differ only in their literals. -/
theorem C8_comma_semicolon_same_kind :
    Token.COMMA = Token.SEMICOLON ∧
      (((Lexer.new ",".toList).bind (runN 1)).map
          (fun p => p.1.map Token.token_type) =
        ((Lexer.new ";".toList).bind (runN 1)).map
          (fun p => p.1.map Token.token_type)) ∧
      ((Lexer.new ",".toList).bind (runN 1)).map
          (fun p => p.1.map Token.literal) = some [","] ∧
      ((Lexer.new ";".toList).bind (runN 1)).map
          (fun p => p.1.map Token.literal) = some [";"] :=
  ⟨rfl, rfl, rfl, rfl⟩

/-- Claim C10: after `new` returns and after every successful call to
`next_token`, `read_position = position + 1` holds unconditionally; and
from an end-of-input state (with that invariant) a further call returns
the `EndOfInput` token while incrementing both cursors by one and keeping
the sentinel as current character — the cursors are never clamped. -/
theorem C10_cursor_invariant :
    (∀ (input : List Char) (l : Lexer), Lexer.new input = some l →
        l.read_position = l.position + 1) ∧
      (∀ (l l1 : Lexer) (t : Token), next_token l = some (t, l1) →
        l1.read_position = l1.position + 1) ∧
      (∀ l : Lexer, AtEof l → l.read_position = l.position + 1 →
        next_token l = some (Token.new Token.EOF "",
          { l with position := l.position + 1,
                   read_position := l.read_position + 1 })) := by
  refine ⟨?_, ?_, ?_⟩
  · intro input l h
    have h1 : read_char ⟨input, 0, 0, '\x00'⟩ = some l := h
    exact (read_char_spec h1).2.2.2.1
  · intro l l1 t h
    exact (next_token_spec h).2.1
  · intro l he hrp
    obtain ⟨input, pos, rp, ch⟩ := l
    obtain ⟨hch, hle⟩ := he
    dsimp only at hch hrp hle ⊢
    subst hch
    subst hrp
    exact next_token_at_eof rfl hle

/-- Witness for C10: the invariant after `new` on `"a"`, after a
successful `next_token` on `"+"`, and the post-end-of-input step for the
empty input. -/
theorem C10_cursor_invariant_witness :
    (⟨['a'], 0, 1, 'a'⟩ : Lexer).read_position =
        (⟨['a'], 0, 1, 'a'⟩ : Lexer).position + 1 ∧
      (⟨['+'], 1, 2, '\x00'⟩ : Lexer).read_position =
        (⟨['+'], 1, 2, '\x00'⟩ : Lexer).position + 1 ∧
      next_token ⟨[], 0, 1, '\x00'⟩ =
        some (Token.new Token.EOF "", ⟨[], 1, 2, '\x00'⟩) :=
  ⟨C10_cursor_invariant.1 ['a'] ⟨['a'], 0, 1, 'a'⟩ rfl,
   C10_cursor_invariant.2.1 ⟨['+'], 0, 1, '+'⟩ ⟨['+'], 1, 2, '\x00'⟩
     (Token.new Token.PLUS "+") rfl,
   C10_cursor_invariant.2.2 ⟨[], 0, 1, '\x00'⟩ ⟨rfl, by decide⟩ rfl⟩

/-- Counterexample to claim C6 as stated: it is not true for *every* input
string that no indexing past the input buffer occurs.  On the one-character
input `"é"` (character count 1, byte length 2) the very first call to
`next_token` reaches `read_char` with `read_position = 1 < input.len() = 2`,
so the guard passes, but `chars().nth(1)` is `None` and its `unwrap`
panics — modelled by `none`. -/
theorem C6_counterexample_multibyte :
    (Lexer.new "é".toList).bind (runN 1) = none := rfl

/-- Claim C6, amended to what the code guarantees: for inputs whose byte
length equals their character count (every character single-byte), no
operation of the scanner ever indexes past the input buffer —
construction always succeeds and establishes the cursor invariant, every
indexing operation (`read_char`, `peekChar`, and the byte slices inside
`read_identifier`/`read_number`) succeeds from any invariant state, the
invariant is preserved by every successful `next_token`, and for the
empty input the very first call to `next` returns `EndOfInput`.  (For
inputs with multi-byte characters this fails, see the counterexample.) -/
theorem C6_single_byte_indexing_safe :
    (∀ input : List Char, ∃ l0, Lexer.new input = some l0 ∧ INV l0) ∧
      (∀ l : Lexer, byteLen l.input = l.input.length → INV l →
        (read_char l).isSome = true ∧ (peekChar l).isSome = true ∧
          (is_letter l.ch = true → (read_identifier l).isSome = true) ∧
          (is_digit l.ch = true → (read_number l).isSome = true)) ∧
      (∀ (l l1 : Lexer) (t : Token), next_token l = some (t, l1) →
        INV l1 ∧ l1.input = l.input) ∧
      Lexer.new [] = some ⟨[], 0, 1, '\x00'⟩ ∧
      next_token ⟨[], 0, 1, '\x00'⟩ =
        some (Token.new Token.EOF "", ⟨[], 1, 2, '\x00'⟩) := by
  refine ⟨?_, ?_, ?_, rfl, rfl⟩
  · intro input
    obtain ⟨l0, h1, h2, -⟩ := new_spec input
    exact ⟨l0, h1, h2⟩
  · intro l hA hInv
    refine ⟨?_, ?_, ?_, ?_⟩
    · obtain ⟨l1, h⟩ := read_char_some hA
      rw [h]
      rfl
    · obtain ⟨c, h⟩ := peekChar_some hA
      rw [h]
      rfl
    · intro hch
      obtain ⟨s, l1, h, -, -⟩ := read_identifier_some hA hInv hch
      rw [h]
      rfl
    · intro hch
      obtain ⟨s, l1, h, -, -⟩ := read_number_some hA hInv hch
      rw [h]
      rfl
  · intro l l1 t h
    exact ⟨(next_token_spec h).2, (next_token_spec h).1⟩

/-- Witness for C6 (amended) at the concrete single-byte state reached by
`Lexer::new("a")` and at the empty input. -/
theorem C6_single_byte_indexing_safe_witness :
    ((read_char ⟨['a'], 0, 1, 'a'⟩).isSome = true ∧
        (read_identifier ⟨['a'], 0, 1, 'a'⟩).isSome = true) ∧
      Lexer.new [] = some ⟨[], 0, 1, '\x00'⟩ := by
  have h := C6_single_byte_indexing_safe.2.1 ⟨['a'], 0, 1, 'a'⟩ (by decide)
    ⟨rfl, fun hcon => absurd hcon (by decide)⟩
  exact ⟨⟨h.1, h.2.2.1 (by decide)⟩, C6_single_byte_indexing_safe.2.2.2.1⟩

/-- Counterexample to claim C9 as stated: a call to `next` can panic even
on an all-ASCII input — on `"x"` the maximal letter run `"x"` is not a
keyword, and `lookup_ident`'s `unwrap` panics (the panic is in the keyword
lookup, not in any indexing). -/
theorem C9_counterexample_lookup_panic :
    (Lexer.new "x".toList).bind (runN 1) = none := rfl

/-- Claim C9, amended to what the code guarantees: from any state with the
cursor invariant over an input whose character count equals its byte
length, none of the bound-checked index operations panics — `read_char`,
`peekChar` and the byte-index slices inside `read_identifier` and
`read_number` all succeed — and the *only* way a call to `next_token` can
panic is `lookup_ident`'s `unwrap` on a non-keyword identifier run. -/
theorem C9_ascii_no_indexing_panic (l : Lexer)
    (hA : byteLen l.input = l.input.length) (hInv : INV l) :
    (read_char l).isSome = true ∧ (peekChar l).isSome = true ∧
      (is_letter l.ch = true → (read_identifier l).isSome = true) ∧
      (is_digit l.ch = true → (read_number l).isSome = true) ∧
      (next_token l = none → is_letter l.ch = true ∧
        ∃ s l1, read_identifier l = some (s, l1) ∧
          Token.lookup_ident s = none) := by
  refine ⟨?_, ?_, ?_, ?_, ?_⟩
  · obtain ⟨l1, h⟩ := read_char_some hA
    rw [h]
    rfl
  · obtain ⟨c, h⟩ := peekChar_some hA
    rw [h]
    rfl
  · intro hch
    obtain ⟨s, l1, h, -, -⟩ := read_identifier_some hA hInv hch
    rw [h]
    rfl
  · intro hch
    obtain ⟨s, l1, h, -, -⟩ := read_number_some hA hInv hch
    rw [h]
    rfl
  · intro hnone
    rcases next_token_total hA hInv with ⟨t, l1, hsome⟩ | ⟨hch, s, l1, hs, hlook, -⟩
    · rw [hsome] at hnone
      exact Option.noConfusion hnone
    · exact ⟨hch, s, l1, hs, hlook⟩

/-- Witness for C9 (amended) at the state reached by `Lexer::new("if")`. -/
theorem C9_ascii_no_indexing_panic_witness :
    (read_char ⟨['i', 'f'], 0, 1, 'i'⟩).isSome = true ∧
      (peekChar ⟨['i', 'f'], 0, 1, 'i'⟩).isSome = true ∧
      (read_identifier ⟨['i', 'f'], 0, 1, 'i'⟩).isSome = true := by
  have h := C9_ascii_no_indexing_panic ⟨['i', 'f'], 0, 1, 'i'⟩ (by decide)
    ⟨rfl, fun hcon => absurd hcon (by decide)⟩
  exact ⟨h.1, h.2.1, h.2.2.1 (by decide)⟩

end Claims

end Monkey
